import Mathlib

/-!
Verification of the rdrand crate core: capability detection, bounded-retry
invocation of the hardware instructions, and the buffer-fill algorithm.

The definitions below are a shallow embedding of src/lib.rs and src/errors.rs.
The hardware primitive is modelled as a function from a global invocation
counter to an optional word (some value on a successful draw, none on a
transient failure); every raw invocation advances the counter by one.
CPUID is modelled as a function from leaf number to four register values,
and compile-time build facts as a record of booleans.
-/

set_option autoImplicit false

namespace Rdrand

/-- Error codes of the library (src/errors.rs, enum ErrorCode). -/
inductive ErrorCode where
  | UnsupportedInstruction
  | HardwareFailure
deriving DecidableEq

/-- One CPUID query result: four 32-bit registers (modelled as Nat). -/
structure CpuidResult where
  eax : Nat
  ebx : Nat
  ecx : Nat
  edx : Nat

/-- A processor, as visible to the detector: the cpuid instruction,
mapping a leaf number to the four result registers. -/
structure Cpu where
  cpuid : Nat → CpuidResult

/-- Compile-time build facts consulted by the code via cfg!. -/
structure BuildCfg where
  target_feature_rdrand : Bool
  target_feature_rdseed : Bool
  target_env_sgx : Bool

/-- src/lib.rs authentic_amd: leaf-0 vendor signature check for AuthenticAMD. -/
def authentic_amd (cpu : Cpu) : Bool :=
  let cpuid0 := cpu.cpuid 0
  cpuid0.ebx == 0x68747541 && cpuid0.ecx == 0x444D4163 && cpuid0.edx == 0x69746E65

/-- src/lib.rs amd_family: ((eax >> 8) & 0xF) + ((eax >> 20) & 0xFF). -/
def amd_family (cpuid1 : CpuidResult) : Nat :=
  ((cpuid1.eax >>> 8) &&& 0xF) + ((cpuid1.eax >>> 20) &&& 0xFF)

/-- src/lib.rs has_rdrand: bit 30 of leaf-1 ECX. -/
def has_rdrand (cpuid1 : CpuidResult) : Bool :=
  (cpuid1.ecx &&& (1 <<< 30)) == (1 <<< 30)

/-- src/lib.rs has_rdseed: bit 18 of leaf-7 EBX. -/
def has_rdseed (cpu : Cpu) : Bool :=
  ((cpu.cpuid 7).ebx &&& (1 <<< 18)) == (1 <<< 18)

/-- src/lib.rs FIRST_GOOD_AMD_FAMILY. -/
def FIRST_GOOD_AMD_FAMILY : Nat := 0x17

/-- src/lib.rs is_available!("rdrand"). -/
def is_available_rdrand (cfg : BuildCfg) (cpu : Cpu) : Bool :=
  if authentic_amd cpu then
    let cpuid1 := cpu.cpuid 1
    has_rdrand cpuid1 && decide (FIRST_GOOD_AMD_FAMILY ≤ amd_family cpuid1)
  else
    cfg.target_feature_rdrand || has_rdrand (cpu.cpuid 1)

/-- src/lib.rs is_available!("rdseed").  NB: in the source the else arm reads
cfg!(target_feature = "rdrand"), i.e. it consults the rdrand target feature,
not the rdseed one; this is embedded faithfully. -/
def is_available_rdseed (cfg : BuildCfg) (cpu : Cpu) : Bool :=
  if authentic_amd cpu then
    decide (FIRST_GOOD_AMD_FAMILY ≤ amd_family (cpu.cpuid 1)) && has_rdseed cpu
  else
    cfg.target_feature_rdrand || has_rdseed cpu

/-- src/lib.rs RdRand::new (the generator is a zero-sized token, so success
carries Unit). -/
def rdrand_new (cfg : BuildCfg) (cpu : Cpu) : Except ErrorCode Unit :=
  if cfg.target_env_sgx then
    if cfg.target_feature_rdrand then Except.ok ()
    else Except.error ErrorCode.UnsupportedInstruction
  else if is_available_rdrand cfg cpu then Except.ok ()
  else Except.error ErrorCode.UnsupportedInstruction

/-- src/lib.rs RdSeed::new. -/
def rdseed_new (cfg : BuildCfg) (cpu : Cpu) : Except ErrorCode Unit :=
  if cfg.target_env_sgx then
    if cfg.target_feature_rdseed then Except.ok ()
    else Except.error ErrorCode.UnsupportedInstruction
  else if is_available_rdseed cfg cpu then Except.ok ()
  else Except.error ErrorCode.UnsupportedInstruction

/-- Following the wording of the spec (standard leaf-1 encoding): the extended family
field is added to the base family field only when the base field is 0xF.
This definition exists to be compared against amd_family, which is embedded
from the source. -/
def standard_family_spec (eax : Nat) : Nat :=
  let base := (eax >>> 8) &&& 0xF
  let ext := (eax >>> 20) &&& 0xFF
  if base = 0xF then base + ext else base

/- Error conversions, src/errors.rs. -/

/-- ErrorCode discriminant per its repr(u8) declaration order. -/
def ErrorCode.discriminant : ErrorCode → Nat
  | ErrorCode.UnsupportedInstruction => 0
  | ErrorCode.HardwareFailure => 1

/-- rand_core::Error::CUSTOM_START. -/
def RAND_CORE_CUSTOM_START : Nat := (1 <<< 31) + (1 <<< 30)

/-- src/errors.rs RDRAND_TAG. -/
def RDRAND_TAG : Nat := RAND_CORE_CUSTOM_START + 0x3D347D00

/-- src/errors.rs ErrorCode::as_randcore_code (no-std path). -/
def as_randcore_code (c : ErrorCode) : Nat := RDRAND_TAG + c.discriminant

/-- From ErrorCode for rand_core::Error in the no-std configuration: the error
is the bare NonZeroU32 code. -/
def from_error_code_nostd (c : ErrorCode) : Nat := as_randcore_code c

/-- Marker for a failed TryFrom, src/errors.rs NotAnErrorCode. -/
inductive NotAnErrorCode where
  | mk

/-- src/errors.rs TryFrom for the no-std configuration: compare the code
against the two tagged values. -/
def try_from_nostd (code : Nat) : Except NotAnErrorCode ErrorCode :=
  if code = as_randcore_code ErrorCode.UnsupportedInstruction then
    Except.ok ErrorCode.UnsupportedInstruction
  else if code = as_randcore_code ErrorCode.HardwareFailure then
    Except.ok ErrorCode.HardwareFailure
  else Except.error NotAnErrorCode.mk

/-- The payload boxed inside rand_core::Error in the std configuration:
either an ErrorCode or some other boxed error type. -/
inductive BoxedError where
  | errorCode (c : ErrorCode)
  | other

/-- From ErrorCode for rand_core::Error in the std configuration:
rand_core::Error::new boxes the code. -/
def from_error_code_std (c : ErrorCode) : BoxedError := BoxedError.errorCode c

/-- src/errors.rs TryFrom for the std configuration: downcast the boxed
payload to ErrorCode. -/
def try_from_std : BoxedError → Except NotAnErrorCode ErrorCode
  | BoxedError.errorCode c => Except.ok c
  | BoxedError.other => Except.error NotAnErrorCode.mk

/- The bounded retry loop, src/lib.rs loop_rand!.  A raw step is a function
from the global invocation counter to the pair (optional word, new counter). -/

/-- Lift a one-invocation primitive to a raw step: one invocation, counter
advances by one. -/
def liftStep (step : Nat → Option Nat) (s : Nat) : Option Nat × Nat := (step s, s + 1)

/-- The body of loop_rand!: fuel counts the remaining allowed attempts
(fuel = limit + 1 - idx in terms of the idx variable of the source); when the last allowed
attempt fails the loop breaks with HardwareFailure. -/
def loopRandGo (stepF : Nat → Option Nat × Nat) : Nat → Nat → Except ErrorCode Nat × Nat
  | 0, s => (Except.error ErrorCode.HardwareFailure, s)
  | fuel + 1, s =>
    match stepF s with
    | (some v, s2) => (Except.ok v, s2)
    | (none, s2) =>
      if fuel = 0 then (Except.error ErrorCode.HardwareFailure, s2)
      else loopRandGo stepF fuel s2

/-- src/lib.rs loop_rand!: retry the raw step until success, at most
limit + 1 attempts in total (the source breaks with an error when its idx
reaches the limit). -/
def loop_rand (stepF : Nat → Option Nat × Nat) (limit s : Nat) : Except ErrorCode Nat × Nat :=
  loopRandGo stepF (limit + 1) s

/-- The generator kind, fixing the retry limit used by loop_rand!:
10 for rdrand, 127 for rdseed. -/
inductive Kind where
  | rdrand
  | rdseed
deriving DecidableEq

/-- The literal retry bound of the source: idx == 10 for rdrand, idx == 127
for rdseed. -/
def Kind.limit : Kind → Nat
  | Kind.rdrand => 10
  | Kind.rdseed => 127

/-- src/lib.rs try_next_u16: loop_rand! over the 16-bit step. -/
def try_next_u16 (k : Kind) (step16 : Nat → Option Nat) (s : Nat) :
    Except ErrorCode Nat × Nat :=
  loop_rand (liftStep step16) k.limit s

/-- src/lib.rs try_next_u32: loop_rand! over the 32-bit step. -/
def try_next_u32 (k : Kind) (step32 : Nat → Option Nat) (s : Nat) :
    Except ErrorCode Nat × Nat :=
  loop_rand (liftStep step32) k.limit s

/-- src/lib.rs try_next_u64 on x86_64: loop_rand! over the native 64-bit step. -/
def try_next_u64 (k : Kind) (step64 : Nat → Option Nat) (s : Nat) :
    Except ErrorCode Nat × Nat :=
  loop_rand (liftStep step64) k.limit s

/-- src/lib.rs arch::_rdrand64_step on x86 (32-bit): two consecutive 32-bit
invocations (both always executed, the flags combined with a bitwise and),
the first giving the high word and the second the low word. -/
def rdrand64_step32 (step32 : Nat → Option Nat) (s : Nat) : Option Nat × Nat :=
  match step32 s, step32 (s + 1) with
  | some hi, some lo => (some (hi * 2 ^ 32 + lo), s + 2)
  | some _, none => (none, s + 2)
  | none, some _ => (none, s + 2)
  | none, none => (none, s + 2)

/-- src/lib.rs try_next_u64 on x86 (32-bit): loop_rand! over the synthesized
64-bit step. -/
def try_next_u64_x86 (k : Kind) (step32 : Nat → Option Nat) (s : Nat) :
    Except ErrorCode Nat × Nat :=
  loop_rand (rdrand64_step32 step32) k.limit s

/-- Following the wording of the spec for the 32-bit 64-bit synthesis: two
consecutive 32-bit draws, high word then low word, each draw independently
subject to the retry policy.  This definition exists to be compared against
try_next_u64_x86, which is embedded from the source. -/
def try_next_u64_spec32 (k : Kind) (step32 : Nat → Option Nat) (s : Nat) :
    Except ErrorCode Nat × Nat :=
  match loop_rand (liftStep step32) k.limit s with
  | (Except.ok hi, s1) =>
    match loop_rand (liftStep step32) k.limit s1 with
    | (Except.ok lo, s2) => (Except.ok (hi * 2 ^ 32 + lo), s2)
    | (Except.error e, s2) => (Except.error e, s2)
  | (Except.error e, s1) => (Except.error e, s1)

/-- A primitive that fails on every even-numbered invocation and succeeds on
every odd-numbered one. -/
def altStep : Nat → Option Nat := fun t => if t % 2 = 1 then some 0 else none


/- Concrete processors and build configurations used to instantiate theorems. -/

/-- An AuthenticAMD processor of family 0x16 (base field 0xF, extended field 7)
with both feature bits set. -/
def amdCpuBelow : Cpu :=
  { cpuid := fun leaf =>
      if leaf = 0 then { eax := 0, ebx := 0x68747541, ecx := 0x444D4163, edx := 0x69746E65 }
      else if leaf = 1 then { eax := 0x00700F00, ebx := 0, ecx := 1 <<< 30, edx := 0 }
      else { eax := 0, ebx := 1 <<< 18, ecx := 0, edx := 0 } }

/-- A build declaring both features statically, outside SGX. -/
def cfgAllFeatures : BuildCfg :=
  { target_feature_rdrand := true, target_feature_rdseed := true, target_env_sgx := false }

/-- A non-AMD processor with every cpuid register zero: no vendor signature,
no feature bits. -/
def nonAmdCpuZero : Cpu :=
  { cpuid := fun _ => { eax := 0, ebx := 0, ecx := 0, edx := 0 } }

/-- A build declaring only the rdrand feature statically, outside SGX. -/
def cfgRdrandOnly : BuildCfg :=
  { target_feature_rdrand := true, target_feature_rdseed := false, target_env_sgx := false }


/- The buffer filler, src/lib.rs try_fill_bytes and slow_fill_bytes.

Memory is a function from byte address to byte value.  A ghost per-address
write counter records how many times each byte was stored, so that
"every byte written exactly once" and "no byte outside dest written" are
directly expressible.  The destination slice is the address range
[a, a + n); W is the native word width in bytes (8 on x86_64, 4 on x86)
and the word is stored in little-endian (native) byte order. -/

/-- State threaded through a fill: the byte memory, the ghost write counter,
and the primitive invocation counter. -/
structure FillState where
  mem : Nat → Nat
  writes : Nat → Nat
  ctr : Nat

/-- Store one byte: the memory is updated and the ghost write count of the
address is incremented. -/
def FillState.writeByte (st : FillState) (addr val : Nat) : FillState :=
  { mem := fun x => if x = addr then val else st.mem x,
    writes := fun x => if x = addr then st.writes x + 1 else st.writes x,
    ctr := st.ctr }

/-- copy_from_slice of the first min-length bytes: store vals pairwise into
addrs (exactly the semantics of copying a slice of len = min of the two
lengths, as the source computes before splitting). -/
def copyBytes : FillState → List Nat → List Nat → FillState
  | st, addr :: addrs, val :: vals => copyBytes (st.writeByte addr val) addrs vals
  | st, _, _ => st

/-- Byte j of a word in native (little-endian) order, as produced by
to_ne_bytes on x86. -/
def wordByte (w j : Nat) : Nat := w / 256 ^ j % 256

/-- The W bytes of a drawn word, in native order. -/
def wordBytesList (W w : Nat) : List Nat :=
  (List.range W).map (wordByte w)

/-- The addresses of the byte range [a, a + n), in order. -/
def addrList (a n : Nat) : List Nat :=
  (List.range n).map (fun j => a + j)

/-- Result of a fill: the final state, tagged with whether the fill
completed or aborted with ErrorCode::HardwareFailure. -/
inductive FillResult where
  | ok (st : FillState)
  | fail (st : FillState)

/-- Whether the fill completed. -/
def FillResult.isOk : FillResult → Bool
  | FillResult.ok _ => true
  | FillResult.fail _ => false

/-- Whether the fill aborted with a hardware failure. -/
def FillResult.isFail : FillResult → Bool
  | FillResult.ok _ => false
  | FillResult.fail _ => true

/-- The state carried by either outcome (the memory is mutated in place in
the source, so the failing return leaves it as is). -/
def FillResult.state : FillResult → FillState
  | FillResult.ok st => st
  | FillResult.fail st => st

/-- The aligned-middle pass of try_fill_bytes: for each of the k word slots
starting at addr, draw one native word with loop_rand! and store it in
place; a failed draw aborts, keeping the slots already stored. -/
def fillMid (step : Nat → Option Nat) (limit W : Nat) :
    Nat → Nat → FillState → Except FillState FillState
  | 0, _, st => Except.ok st
  | k + 1, addr, st =>
    match loop_rand (liftStep step) limit st.ctr with
    | (Except.error _, s2) => Except.error { st with ctr := s2 }
    | (Except.ok w, s2) =>
      fillMid step limit W k (addr + W)
        (copyBytes { st with ctr := s2 } (addrList addr W) (wordBytesList W w))

/-- The loop body of slow_fill_bytes.  One constructor case is one source
loop iteration: when left is exhausted it is swapped with right; when the
scratch buffer is empty a fresh word is drawn (a failed draw aborts the
whole fill); then min(left.len, buffer.len) bytes are spliced from the
buffer into left and both are advanced.  fuel bounds the number of
iterations; the entry point supplies enough fuel for the loop to run to
completion (theorem slowFillGo_fuel below). -/
def slowFillGo (step : Nat → Option Nat) (limit W : Nat) :
    Nat → List Nat → List Nat → List Nat → FillState → FillResult
  | 0, _, _, _, st => FillResult.fail st
  | _ + 1, [], [], _, st => FillResult.ok st
  | fuel + 1, [], r :: rs, buffer, st => slowFillGo step limit W fuel (r :: rs) [] buffer st
  | fuel + 1, l :: ls, right, [], st =>
    match loop_rand (liftStep step) limit st.ctr with
    | (Except.error _, s2) => FillResult.fail { st with ctr := s2 }
    | (Except.ok w, s2) =>
      slowFillGo step limit W fuel
        ((l :: ls).drop (min (l :: ls).length (wordBytesList W w).length))
        right
        ((wordBytesList W w).drop (min (l :: ls).length (wordBytesList W w).length))
        (copyBytes { st with ctr := s2 } (l :: ls) (wordBytesList W w))
  | fuel + 1, l :: ls, right, b :: bs, st =>
    slowFillGo step limit W fuel
      ((l :: ls).drop (min (l :: ls).length (b :: bs).length))
      right
      ((b :: bs).drop (min (l :: ls).length (b :: bs).length))
      (copyBytes st (l :: ls) (b :: bs))

/-- src/lib.rs slow_fill_bytes: splice drawn words byte-by-byte into the two
unaligned ranges, sharing the scratch buffer (initially empty) across both. -/
def slow_fill_bytes (step : Nat → Option Nat) (limit W : Nat)
    (left right : List Nat) (st : FillState) : FillResult :=
  slowFillGo step limit W (left.length + 2 * right.length + 2) left right [] st

/-- src/lib.rs try_fill_bytes: when the destination is longer than one
native word, split it with align_to_mut into an unaligned head, a maximal
word-aligned middle and an unaligned tail, fill the middle word-by-word in
place, then splice the head and tail; otherwise run the splice pass over the
whole destination. -/
def try_fill_bytes (step : Nat → Option Nat) (limit W : Nat)
    (a n : Nat) (st : FillState) : FillResult :=
  if n > W then
    let leftLen := min n ((W - a % W) % W)
    let midElems := (n - leftLen) / W
    let midStart := a + leftLen
    let rightStart := midStart + midElems * W
    let rightLen := n - leftLen - midElems * W
    match fillMid step limit W midElems midStart st with
    | Except.error st2 => FillResult.fail st2
    | Except.ok st2 =>
      slow_fill_bytes step limit W (addrList a leftLen) (addrList rightStart rightLen) st2
  else
    slow_fill_bytes step limit W (addrList a n) [] st


/-- Provenance of a byte value: it is byte j (j < W) in native order of a
word delivered by a successful primitive invocation whose counter lies in
[c, c2). -/
def ProvByte (step : Nat → Option Nat) (W c c2 b : Nat) : Prop :=
  ∃ t v j, c ≤ t ∧ t < c2 ∧ step t = some v ∧ j < W ∧ b = wordByte v j

/-- The state carried by either side of the aligned-middle pass result. -/
def exceptFillState : Except FillState FillState → FillState
  | Except.ok st => st
  | Except.error st => st

/-- The all-zero initial fill state. -/
def zeroFillState : FillState :=
  { mem := fun _ => 0, writes := fun _ => 0, ctr := 0 }

/-- A primitive that succeeds on its first invocation only and fails from
then on. -/
def stepOnce : Nat → Option Nat := fun t => if t = 0 then some 0 else none

/-- The contract of the splice loop relative to a starting state: the
invocation counter only grows; addresses outside the two ranges keep their
memory and write counts; addresses inside are written at most once, any
written byte coming from a word drawn at or after counter c0; and a
completed run writes every address exactly once. -/
def SlowFillInv (step : Nat → Option Nat) (W c0 : Nat) (st : FillState)
    (left right : List Nat) (res : FillResult) : Prop :=
  st.ctr ≤ res.state.ctr ∧
  (∀ x, x ∉ left ++ right →
    res.state.mem x = st.mem x ∧ res.state.writes x = st.writes x) ∧
  (∀ x, x ∈ left ++ right →
    res.state.writes x ≤ st.writes x + 1 ∧
    (res.state.writes x = st.writes x + 1 →
      ProvByte step W c0 res.state.ctr (res.state.mem x))) ∧
  (res.isOk = true → ∀ x, x ∈ left ++ right →
    res.state.writes x = st.writes x + 1)

/- Behaviour of the retry loop over a one-invocation primitive. -/

theorem loopRandGo_liftStep_allfail (step : Nat → Option Nat) (h : ∀ t, step t = none) :
    ∀ fuel s, 1 ≤ fuel →
      loopRandGo (liftStep step) fuel s = (Except.error ErrorCode.HardwareFailure, s + fuel) := by
  intro fuel
  induction fuel with
  | zero => intro s h1; omega
  | succ n ih =>
    intro s _
    simp only [loopRandGo, liftStep, h s]
    by_cases hn : n = 0
    · subst hn; simp
    · rw [if_neg hn, ih (s + 1) (Nat.one_le_iff_ne_zero.mpr hn)]
      congr 1
      omega

theorem loopRandGo_liftStep_firstsucc (step : Nat → Option Nat) :
    ∀ f fuel s v, f < fuel → (∀ i, i < f → step (s + i) = none) → step (s + f) = some v →
      loopRandGo (liftStep step) fuel s = (Except.ok v, s + f + 1) := by
  intro f
  induction f with
  | zero =>
    intro fuel s v hf _ hsucc
    cases fuel with
    | zero => omega
    | succ n =>
      have h0 : step s = some v := by simpa using hsucc
      simp [loopRandGo, liftStep, h0]
  | succ m ih =>
    intro fuel s v hf hfail hsucc
    cases fuel with
    | zero => omega
    | succ n =>
      have h0 : step s = none := by simpa using hfail 0 (Nat.succ_pos m)
      have hn : n ≠ 0 := by omega
      simp only [loopRandGo, liftStep, h0]
      rw [if_neg hn]
      have hrec := ih n (s + 1) v (by omega)
        (fun i hi => by
          have e1 : s + 1 + i = s + (i + 1) := by omega
          rw [e1]
          exact hfail (i + 1) (by omega))
        (by
          have e2 : s + 1 + m = s + (m + 1) := by omega
          rw [e2]
          exact hsucc)
      rw [hrec]
      congr 1
      omega

/- Behaviour of the retry loop over the synthesized 64-bit step of the
32-bit architecture. -/

theorem rdrand64_step32_fail (step32 : Nat → Option Nat) (s : Nat)
    (h : step32 s = none ∨ step32 (s + 1) = none) :
    rdrand64_step32 step32 s = (none, s + 2) := by
  rcases h with h | h <;>
    rcases hs : step32 s with _ | a <;>
    rcases ht : step32 (s + 1) with _ | b <;>
    simp_all [rdrand64_step32]

theorem rdrand64_step32_ok (step32 : Nat → Option Nat) (s hi lo : Nat)
    (h1 : step32 s = some hi) (h2 : step32 (s + 1) = some lo) :
    rdrand64_step32 step32 s = (some (hi * 2 ^ 32 + lo), s + 2) := by
  simp [rdrand64_step32, h1, h2]

theorem loopRandGo_pair_allfail (step32 : Nat → Option Nat) :
    ∀ fuel s,
      (∀ i, i < fuel → step32 (s + 2 * i) = none ∨ step32 (s + 2 * i + 1) = none) →
      loopRandGo (rdrand64_step32 step32) fuel s =
        (Except.error ErrorCode.HardwareFailure, s + 2 * fuel) := by
  intro fuel
  induction fuel with
  | zero => intro s _; simp [loopRandGo]
  | succ n ih =>
    intro s h
    have h0 : rdrand64_step32 step32 s = (none, s + 2) := by
      apply rdrand64_step32_fail
      simpa using h 0 (by omega)
    simp only [loopRandGo, h0]
    by_cases hn : n = 0
    · subst hn; norm_num
    · rw [if_neg hn, ih (s + 2) ?_]
      · congr 1
        omega
      · intro i hi
        have e1 : s + 2 + 2 * i = s + 2 * (i + 1) := by omega
        rw [e1]
        exact h (i + 1) (by omega)

theorem loopRandGo_pair_firstsucc (step32 : Nat → Option Nat) :
    ∀ n fuel s hi lo, n < fuel →
      (∀ i, i < n → step32 (s + 2 * i) = none ∨ step32 (s + 2 * i + 1) = none) →
      step32 (s + 2 * n) = some hi → step32 (s + 2 * n + 1) = some lo →
      loopRandGo (rdrand64_step32 step32) fuel s =
        (Except.ok (hi * 2 ^ 32 + lo), s + 2 * n + 2) := by
  intro n
  induction n with
  | zero =>
    intro fuel s hi lo hf _ h1 h2
    cases fuel with
    | zero => omega
    | succ m =>
      have h1s : step32 s = some hi := by simpa using h1
      have h2s : step32 (s + 1) = some lo := by simpa using h2
      have h0 := rdrand64_step32_ok step32 s hi lo h1s h2s
      simp only [loopRandGo, h0]
  | succ m ih =>
    intro fuel s hi lo hf hfail h1 h2
    cases fuel with
    | zero => omega
    | succ n2 =>
      have h0 : rdrand64_step32 step32 s = (none, s + 2) := by
        apply rdrand64_step32_fail
        simpa using hfail 0 (by omega)
      have hn : n2 ≠ 0 := by omega
      simp only [loopRandGo, h0]
      rw [if_neg hn]
      have hrec := ih n2 (s + 2) hi lo (by omega)
        (fun i hi2 => by
          have e1 : s + 2 + 2 * i = s + 2 * (i + 1) := by omega
          rw [e1]
          exact hfail (i + 1) (by omega))
        (by
          have e1 : s + 2 + 2 * m = s + 2 * (m + 1) := by omega
          rw [e1]
          exact h1)
        (by
          have e2 : s + 2 + 2 * m + 1 = s + 2 * (m + 1) + 1 := by omega
          rw [e2]
          exact h2)
      rw [hrec]
      congr 1
      omega

/-- Claim C3: against a primitive that fails on every invocation, the three
single-word draws return HardwareFailure after invoking the primitive exactly
limit + 1 times (the retry ceiling: 11 for rdrand, 128 for rdseed) — the
final counter s + (limit + 1) counts every raw invocation made — and against
a primitive that fails f times, f within the ceiling, and then succeeds,
they return Ok after exactly f + 1 invocations. -/
theorem try_next_retry_ceiling :
    (∀ (k : Kind) (step : Nat → Option Nat) (s : Nat), (∀ t, step t = none) →
      try_next_u16 k step s = (Except.error ErrorCode.HardwareFailure, s + (k.limit + 1)) ∧
      try_next_u32 k step s = (Except.error ErrorCode.HardwareFailure, s + (k.limit + 1)) ∧
      try_next_u64 k step s = (Except.error ErrorCode.HardwareFailure, s + (k.limit + 1))) ∧
    (∀ (k : Kind) (step : Nat → Option Nat) (s f v : Nat), f < k.limit + 1 →
      (∀ i, i < f → step (s + i) = none) → step (s + f) = some v →
      try_next_u16 k step s = (Except.ok v, s + f + 1) ∧
      try_next_u32 k step s = (Except.ok v, s + f + 1) ∧
      try_next_u64 k step s = (Except.ok v, s + f + 1)) := by
  constructor
  · intro k step s h
    have := loopRandGo_liftStep_allfail step h (k.limit + 1) s (by omega)
    exact ⟨this, this, this⟩
  · intro k step s f v hf hfail hsucc
    have := loopRandGo_liftStep_firstsucc step f (k.limit + 1) s v hf hfail hsucc
    exact ⟨this, this, this⟩

/-- Witness for C3: an always-failing primitive exhausts exactly 11 attempts
for rdrand and 128 for rdseed; an immediately succeeding one uses a single
invocation. -/
theorem try_next_retry_ceiling_witness :
    try_next_u16 Kind.rdrand (fun _ => none) 0 =
      (Except.error ErrorCode.HardwareFailure, 11) ∧
    try_next_u32 Kind.rdseed (fun _ => none) 5 =
      (Except.error ErrorCode.HardwareFailure, 133) ∧
    try_next_u64 Kind.rdrand (fun _ => some 9) 0 = (Except.ok 9, 1) := by
  refine ⟨?_, ?_, ?_⟩
  · simpa using (try_next_retry_ceiling.1 Kind.rdrand (fun _ => none) 0 (fun _ => rfl)).1
  · simpa using (try_next_retry_ceiling.1 Kind.rdseed (fun _ => none) 5 (fun _ => rfl)).2.1
  · simpa using
      (try_next_retry_ceiling.2 Kind.rdrand (fun _ => some 9) 0 0 9 (by omega)
        (fun i hi => by omega) rfl).2.2

/-- Claim C6 counterexample: against altStep, the 64-bit draw of the code on the
32-bit architecture fails (every retry attempt redraws both halves, and the
first half always fails), while the per-draw-retry composition of the spec — each 32-bit draw
independently subject to the retry policy — succeeds.  So the two draws are
not each independently subject to the retry policy. -/
theorem try_next_u64_x86_ne_spec32 :
    try_next_u64_x86 Kind.rdrand altStep 0 =
      (Except.error ErrorCode.HardwareFailure, 22) ∧
    try_next_u64_spec32 Kind.rdrand altStep 0 = (Except.ok 0, 4) :=
  ⟨rfl, rfl⟩

/-- Claim C6 (amended): on the 32-bit architecture each retry attempt of
try_next_u64 performs two consecutive 32-bit invocations, the first giving
the high word and the second the low word; the pair is subject to the retry
policy as a unit — an attempt succeeds only when both invocations succeed —
and when every attempt up to the retry ceiling has a failing half the whole
draw returns HardwareFailure. -/
theorem try_next_u64_x86_pair_retry :
    (∀ (k : Kind) (step32 : Nat → Option Nat) (s : Nat),
      (∀ i, i ≤ k.limit → step32 (s + 2 * i) = none ∨ step32 (s + 2 * i + 1) = none) →
      try_next_u64_x86 k step32 s =
        (Except.error ErrorCode.HardwareFailure, s + 2 * (k.limit + 1))) ∧
    (∀ (k : Kind) (step32 : Nat → Option Nat) (s n hi lo : Nat),
      n ≤ k.limit →
      (∀ i, i < n → step32 (s + 2 * i) = none ∨ step32 (s + 2 * i + 1) = none) →
      step32 (s + 2 * n) = some hi → step32 (s + 2 * n + 1) = some lo →
      try_next_u64_x86 k step32 s = (Except.ok (hi * 2 ^ 32 + lo), s + 2 * n + 2)) := by
  constructor
  · intro k step32 s h
    exact loopRandGo_pair_allfail step32 (k.limit + 1) s (fun i hi => h i (by omega))
  · intro k step32 s n hi lo hn hfail h1 h2
    exact loopRandGo_pair_firstsucc step32 n (k.limit + 1) s hi lo (by omega) hfail h1 h2

/-- Witness for amended C6: an always-failing 32-bit primitive exhausts the
rdrand budget after 22 invocations; an immediately succeeding one yields the
high word from the first invocation and the low word from the second. -/
theorem try_next_u64_x86_pair_retry_witness :
    try_next_u64_x86 Kind.rdrand (fun _ => none) 0 =
      (Except.error ErrorCode.HardwareFailure, 22) ∧
    try_next_u64_x86 Kind.rdrand (fun _ => some 3) 0 =
      (Except.ok (3 * 2 ^ 32 + 3), 2) := by
  constructor
  · simpa using
      try_next_u64_x86_pair_retry.1 Kind.rdrand (fun _ => none) 0 (fun i _ => Or.inl rfl)
  · simpa using
      try_next_u64_x86_pair_retry.2 Kind.rdrand (fun _ => some 3) 0 0 3 3 (by omega)
        (fun i hi => by omega) rfl rfl

/-- Claim C1: on an AuthenticAMD processor whose derived family is below
FIRST_GOOD_AMD_FAMILY, detection reports both instructions unavailable and
both constructors return UnsupportedInstruction, for every processor state
(hence even with the feature bits set) and every build configuration (hence
even with the features statically declared).  The environment is taken
outside SGX, where cpuid is consulted at all. -/
theorem amd_family_exclusion (cfg : BuildCfg) (cpu : Cpu)
    (hsgx : cfg.target_env_sgx = false)
    (hamd : authentic_amd cpu = true)
    (hfam : amd_family (cpu.cpuid 1) < FIRST_GOOD_AMD_FAMILY) :
    is_available_rdrand cfg cpu = false ∧ is_available_rdseed cfg cpu = false ∧
    rdrand_new cfg cpu = Except.error ErrorCode.UnsupportedInstruction ∧
    rdseed_new cfg cpu = Except.error ErrorCode.UnsupportedInstruction := by
  have hnot : ¬ (FIRST_GOOD_AMD_FAMILY ≤ amd_family (cpu.cpuid 1)) := Nat.not_le.mpr hfam
  have h1 : is_available_rdrand cfg cpu = false := by
    simp [is_available_rdrand, hamd, hnot]
  have h2 : is_available_rdseed cfg cpu = false := by
    simp [is_available_rdseed, hamd, hnot]
  exact ⟨h1, h2, by simp [rdrand_new, hsgx, h1], by simp [rdseed_new, hsgx, h2]⟩

/-- Witness for C1 at a concrete family-0x16 AMD processor with all feature
bits set and both features statically declared. -/
theorem amd_family_exclusion_witness :
    is_available_rdrand cfgAllFeatures amdCpuBelow = false ∧
    is_available_rdseed cfgAllFeatures amdCpuBelow = false ∧
    rdrand_new cfgAllFeatures amdCpuBelow = Except.error ErrorCode.UnsupportedInstruction ∧
    rdseed_new cfgAllFeatures amdCpuBelow = Except.error ErrorCode.UnsupportedInstruction :=
  amd_family_exclusion cfgAllFeatures amdCpuBelow rfl (by decide) (by decide)

/-- Claim C4, evaluated at the failing input: a non-AMD processor whose leaf-7
EBX bit 18 is clear, under a build that declares only the rdrand feature.
The code reports the seed generator available (because the rdseed arm of the
availability check consults the rdrand target feature), although the feature
bit is clear, the rdseed feature is not statically declared, and the vendor
is not AMD — so the claimed formula (bit 18 OR the rdseed guarantee) is
false while the code yields true. -/
theorem rdseed_availability_uses_rdrand_feature :
    is_available_rdseed cfgRdrandOnly nonAmdCpuZero = true ∧
    has_rdseed nonAmdCpuZero = false ∧
    cfgRdrandOnly.target_feature_rdseed = false ∧
    authentic_amd nonAmdCpuZero = false ∧
    (has_rdseed nonAmdCpuZero || cfgRdrandOnly.target_feature_rdseed) = false := by
  decide

/-- Claim C8 counterexample: at leaf-1 EAX 0x100600 (base family field 6,
extended family field 1) the code derives family 7 while the standard
encoding, which adds the extended field only when the base field is 0xF,
yields 6. -/
theorem amd_family_ne_standard :
    amd_family { eax := 0x100600, ebx := 0, ecx := 0, edx := 0 } ≠
      standard_family_spec 0x100600 := by
  decide

/-- Claim C8 (amended): the code adds the extended family field to the base
family field unconditionally; this agrees with the standard leaf-1 encoding
exactly on inputs whose base family field is 0xF or whose extended family
field is zero. -/
theorem amd_family_standard_encoding (eax b c d : Nat)
    (h : (eax >>> 8) &&& 0xF = 0xF ∨ (eax >>> 20) &&& 0xFF = 0) :
    amd_family { eax := eax, ebx := b, ecx := c, edx := d } =
      ((eax >>> 8) &&& 0xF) + ((eax >>> 20) &&& 0xFF) ∧
    amd_family { eax := eax, ebx := b, ecx := c, edx := d } = standard_family_spec eax := by
  refine ⟨rfl, ?_⟩
  rcases h with h | h
  · simp [amd_family, standard_family_spec, h]
  · simp only [amd_family, standard_family_spec, h, Nat.add_zero]
    split <;> rfl

/-- Witness for amended C8 at EAX 0x800F00: base field 0xF, extended field 8,
derived family 0x17, matching the standard encoding. -/
theorem amd_family_standard_encoding_witness :
    amd_family { eax := 0x800F00, ebx := 0, ecx := 0, edx := 0 } =
      ((0x800F00 >>> 8) &&& 0xF) + ((0x800F00 >>> 20) &&& 0xFF) ∧
    amd_family { eax := 0x800F00, ebx := 0, ecx := 0, edx := 0 } =
      standard_family_spec 0x800F00 :=
  amd_family_standard_encoding 0x800F00 0 0 0 (Or.inl (by decide))

/-- Claim C10: converting either ErrorCode variant into a rand_core error and
back via TryFrom yields Ok of the same variant, in both the std and no-std
code paths. -/
theorem error_code_roundtrip :
    (∀ c : ErrorCode, try_from_std (from_error_code_std c) = Except.ok c) ∧
    (∀ c : ErrorCode, try_from_nostd (from_error_code_nostd c) = Except.ok c) := by
  constructor
  · intro c; cases c <;> rfl
  · intro c; cases c <;> rfl

/- Basic facts about the retry loop, byte copying and address lists, used by
the buffer-fill proofs. -/

theorem loopRandGo_liftStep_spec (step : Nat → Option Nat) :
    ∀ fuel s r s2, loopRandGo (liftStep step) fuel s = (r, s2) →
      s ≤ s2 ∧ s2 ≤ s + fuel ∧
      ∀ v, r = Except.ok v → ∃ t, s ≤ t ∧ t < s2 ∧ step t = some v := by
  intro fuel
  induction fuel with
  | zero =>
    intro s r s2 h
    simp only [loopRandGo] at h
    cases h
    exact ⟨le_refl _, by omega, fun v hv => by cases hv⟩
  | succ n ih =>
    intro s r s2 h
    rcases hstep : step s with _ | w <;> simp only [loopRandGo, liftStep, hstep] at h
    · by_cases hn : n = 0
      · subst hn
        rw [if_pos rfl] at h
        cases h
        exact ⟨by omega, by omega, fun v hv => by cases hv⟩
      · rw [if_neg hn] at h
        obtain ⟨h1, h2, h3⟩ := ih (s + 1) r s2 h
        refine ⟨by omega, by omega, fun v hv => ?_⟩
        obtain ⟨t, ht1, ht2, ht3⟩ := h3 v hv
        exact ⟨t, by omega, ht2, ht3⟩
    · cases h
      refine ⟨by omega, by omega, fun v hv => ?_⟩
      cases hv
      exact ⟨s, le_refl _, by omega, hstep⟩

theorem copyBytes_ctr : ∀ (addrs vals : List Nat) (st : FillState),
    (copyBytes st addrs vals).ctr = st.ctr := by
  intro addrs
  induction addrs with
  | nil => intro vals st; cases vals <;> rfl
  | cons a rest ih =>
    intro vals st
    cases vals with
    | nil => rfl
    | cons v vs => exact ih vs (st.writeByte a v)

theorem copyBytes_spec : ∀ (addrs vals : List Nat) (st : FillState), addrs.Nodup →
    (∀ x, x ∉ addrs.take (min addrs.length vals.length) →
      (copyBytes st addrs vals).mem x = st.mem x ∧
      (copyBytes st addrs vals).writes x = st.writes x) ∧
    (∀ x, x ∈ addrs.take (min addrs.length vals.length) →
      (copyBytes st addrs vals).writes x = st.writes x + 1 ∧
      ∃ b, b ∈ vals ∧ (copyBytes st addrs vals).mem x = b) := by
  intro addrs
  induction addrs with
  | nil =>
    intro vals st _
    refine ⟨fun x _ => ⟨rfl, rfl⟩, fun x hx => ?_⟩
    simp at hx
  | cons a rest ih =>
    intro vals st hnd
    cases vals with
    | nil =>
      refine ⟨fun x _ => ⟨rfl, rfl⟩, fun x hx => ?_⟩
      simp at hx
    | cons v vs =>
      have hna : a ∉ rest := (List.nodup_cons.mp hnd).1
      have hnd2 : rest.Nodup := (List.nodup_cons.mp hnd).2
      obtain ⟨ihn, ihm⟩ := ih vs (st.writeByte a v) hnd2
      have htake : (a :: rest).take (min (a :: rest).length (v :: vs).length) =
          a :: rest.take (min rest.length vs.length) := by
        simp [Nat.succ_min_succ]
      constructor
      · intro x hx
        rw [htake] at hx
        have hx1 : x ≠ a := fun he => hx (he ▸ List.mem_cons_self a _)
        have hx2 : x ∉ rest.take (min rest.length vs.length) :=
          fun hc => hx (List.mem_cons_of_mem a hc)
        obtain ⟨h1, h2⟩ := ihn x hx2
        constructor
        · show (copyBytes (st.writeByte a v) rest vs).mem x = st.mem x
          rw [h1]
          simp [FillState.writeByte, hx1]
        · show (copyBytes (st.writeByte a v) rest vs).writes x = st.writes x
          rw [h2]
          simp [FillState.writeByte, hx1]
      · intro x hx
        rw [htake] at hx
        rcases List.mem_cons.mp hx with rfl | hx2
        · have hnotin : x ∉ rest.take (min rest.length vs.length) :=
            fun hc => hna (List.take_subset _ _ hc)
          obtain ⟨h1, h2⟩ := ihn x hnotin
          refine ⟨?_, v, List.mem_cons_self v vs, ?_⟩
          · show (copyBytes (st.writeByte x v) rest vs).writes x = st.writes x + 1
            rw [h2]
            simp [FillState.writeByte]
          · show (copyBytes (st.writeByte x v) rest vs).mem x = v
            rw [h1]
            simp [FillState.writeByte]
        · have hxa : x ≠ a := fun he => hna (he ▸ List.take_subset _ _ hx2)
          obtain ⟨h1, h2⟩ := ihm x hx2
          refine ⟨?_, ?_⟩
          · show (copyBytes (st.writeByte a v) rest vs).writes x = st.writes x + 1
            rw [h1]
            simp [FillState.writeByte, hxa]
          · obtain ⟨b, hb1, hb2⟩ := h2
            exact ⟨b, List.mem_cons_of_mem v hb1, hb2⟩

theorem mem_addrList (a n x : Nat) : x ∈ addrList a n ↔ a ≤ x ∧ x < a + n := by
  constructor
  · intro hx
    obtain ⟨j, hj, hjx⟩ := List.mem_map.mp hx
    have := List.mem_range.mp hj
    omega
  · intro hx
    refine List.mem_map.mpr ⟨x - a, List.mem_range.mpr (by omega), by omega⟩

theorem addrList_nodup (a n : Nat) : (addrList a n).Nodup :=
  List.Nodup.map (fun i j h => by omega) (List.nodup_range n)

theorem length_addrList (a n : Nat) : (addrList a n).length = n := by
  simp [addrList]

theorem length_wordBytesList (W w : Nat) : (wordBytesList W w).length = W := by
  simp [wordBytesList]

theorem mem_wordBytesList (W w b : Nat) (h : b ∈ wordBytesList W w) :
    ∃ j, j < W ∧ b = wordByte w j := by
  obtain ⟨j, hj, hb⟩ := List.mem_map.mp h
  exact ⟨j, List.mem_range.mp hj, hb.symm⟩

theorem ProvByte.mono (step : Nat → Option Nat) (W c c2 cl c2l b : Nat)
    (h1 : cl ≤ c) (h2 : c2 ≤ c2l) (h : ProvByte step W c c2 b) :
    ProvByte step W cl c2l b := by
  obtain ⟨t, v, j, ht1, ht2, ht3, hj, hb⟩ := h
  exact ⟨t, v, j, by omega, by omega, ht3, hj, hb⟩

theorem take_drop_disjoint (l : List Nat) (n : Nat) (h : l.Nodup) :
    ∀ x, x ∈ l.take n → x ∈ l.drop n → False := by
  intro x h1 h2
  rw [← List.take_append_drop n l] at h
  obtain ⟨_, _, hdisj⟩ := List.nodup_append.mp h
  exact hdisj h1 h2

/- The aligned-middle pass: frame, coverage, provenance and invocation
bounds. -/

theorem fillMid_spec (step : Nat → Option Nat) (limit W : Nat) :
    ∀ k addr (st : FillState) res, fillMid step limit W k addr st = res →
      st.ctr ≤ (exceptFillState res).ctr ∧
      (exceptFillState res).ctr ≤ st.ctr + k * (limit + 1) ∧
      (∀ x, x < addr ∨ addr + k * W ≤ x →
        (exceptFillState res).mem x = st.mem x ∧
        (exceptFillState res).writes x = st.writes x) ∧
      (∀ x, addr ≤ x → x < addr + k * W →
        (exceptFillState res).writes x ≤ st.writes x + 1 ∧
        ((exceptFillState res).writes x = st.writes x + 1 →
          ProvByte step W st.ctr (exceptFillState res).ctr ((exceptFillState res).mem x))) ∧
      (∀ st2, res = Except.ok st2 →
        ∀ x, addr ≤ x → x < addr + k * W → st2.writes x = st.writes x + 1) := by
  intro k
  induction k with
  | zero =>
    intro addr st res h
    simp only [fillMid] at h
    subst h
    refine ⟨le_refl _, by simp [exceptFillState], fun x hx => ⟨rfl, rfl⟩,
      fun x hx1 hx2 => absurd hx2 (by omega), ?_⟩
    intro st2 h2 x hx1 hx2
    exact absurd hx2 (by omega)
  | succ k ih =>
    intro addr st res h
    have hmul1 : (k + 1) * (limit + 1) = k * (limit + 1) + (limit + 1) := by ring
    have hmul2 : (k + 1) * W = k * W + W := by ring
    simp only [fillMid] at h
    split at h
    · -- the draw for this word slot failed
      rename_i s2 heq
      subst h
      obtain ⟨hls1, hls2, hls3⟩ :=
        loopRandGo_liftStep_spec step (limit + 1) st.ctr _ _
          (by simpa only [loop_rand] using heq)
      refine ⟨hls1, ?_, fun x hx => ⟨rfl, rfl⟩, fun x hx1 hx2 => ?_, ?_⟩
      · show s2 ≤ st.ctr + (k + 1) * (limit + 1)
        omega
      · exact ⟨Nat.le_succ _,
          fun hc => absurd (show st.writes x = st.writes x + 1 from hc) (by omega)⟩
      · intro st2 h2
        cases h2
    · -- the draw succeeded; the word is stored and the pass continues
      rename_i w s2 heq
      obtain ⟨hls1, hls2, hls3⟩ :=
        loopRandGo_liftStep_spec step (limit + 1) st.ctr _ _
          (by simpa only [loop_rand] using heq)
      have htake : (addrList addr W).take
          (min (addrList addr W).length (wordBytesList W w).length) = addrList addr W := by
        rw [length_addrList, length_wordBytesList, Nat.min_self]
        exact List.take_of_length_le (by rw [length_addrList])
      have hcopy := copyBytes_spec (addrList addr W) (wordBytesList W w)
        { st with ctr := s2 } (addrList_nodup addr W)
      rw [htake] at hcopy
      obtain ⟨hcn, hcm⟩ := hcopy
      set st3 := copyBytes { st with ctr := s2 } (addrList addr W) (wordBytesList W w)
        with hst3
      have hctr3 : st3.ctr = s2 := copyBytes_ctr _ _ _
      obtain ⟨ih1, ih2, ih3, ih4, ih5⟩ := ih (addr + W) st3 res h
      obtain ⟨t0, ht01, ht02, ht03⟩ := hls3 w rfl
      refine ⟨by omega, by omega, ?_, ?_, ?_⟩
      · -- frame outside this word and outside the rest
        intro x hx
        have hxnot : x ∉ addrList addr W := fun hc => by
          rw [mem_addrList] at hc
          have hW1 : W ≤ (k + 1) * W := Nat.le_mul_of_pos_left W (Nat.succ_pos k)
          omega
        obtain ⟨hm1, hm2⟩ := hcn x hxnot
        obtain ⟨hm3, hm4⟩ := ih3 x (by omega)
        exact ⟨by rw [hm3, hm1], by rw [hm4, hm2]⟩
      · -- inside: written at most once, written bytes come from a draw
        intro x hx1 hx2
        by_cases hxin : x ∈ addrList addr W
        · obtain ⟨hw1, b, hb1, hb2⟩ := hcm x hxin
          have hxlt : x < addr + W := by
            rw [mem_addrList] at hxin; omega
          obtain ⟨hf1, hf2⟩ := ih3 x (Or.inl hxlt)
          constructor
          · rw [hf2, hw1]
          · intro _
            obtain ⟨j, hj, hbj⟩ := mem_wordBytesList W w b hb1
            refine ⟨t0, w, j, ht01, by omega, ht03, hj, ?_⟩
            rw [hf1, hb2, hbj]
        · have hxge : addr + W ≤ x := by
            rw [mem_addrList] at hxin; omega
          obtain ⟨hm1, hm2⟩ := hcn x hxin
          have hm2l : st3.writes x = st.writes x := hm2
          obtain ⟨hi1, hi2⟩ := ih4 x hxge (by omega)
          constructor
          · omega
          · intro heq2
            have hprov := hi2 (by omega)
            exact ProvByte.mono step W _ _ _ _ _ (by omega) (le_refl _) hprov
      · -- a completed pass writes every byte of the range exactly once
        intro st2 hres x hx1 hx2
        subst hres
        by_cases hxin : x ∈ addrList addr W
        · obtain ⟨hw1, _⟩ := hcm x hxin
          have hxlt : x < addr + W := by
            rw [mem_addrList] at hxin; omega
          obtain ⟨hf1, hf2⟩ := ih3 x (Or.inl hxlt)
          have hf2l : st2.writes x = st3.writes x := hf2
          have hw1l : st3.writes x = st.writes x + 1 := hw1
          omega
        · have hxge : addr + W ≤ x := by
            rw [mem_addrList] at hxin; omega
          obtain ⟨hm1, hm2⟩ := hcn x hxin
          have hm2l : st3.writes x = st.writes x := hm2
          have hi := ih5 st2 rfl x hxge (by omega)
          omega

/- The splice loop: one copy iteration preserves the contract. -/

theorem slowFillGo_copy_step (step : Nat → Option Nat) (limit W : Nat) (fuel : Nat)
    (hih : ∀ (left right buffer : List Nat) (st : FillState) (c0 : Nat) res,
      slowFillGo step limit W fuel left right buffer st = res →
      (left ++ right).Nodup →
      (∀ b, b ∈ buffer → ProvByte step W c0 st.ctr b) →
      c0 ≤ st.ctr →
      SlowFillInv step W c0 st left right res)
    (l : Nat) (ls right buf : List Nat) (st2 : FillState) (c0 : Nat) (res : FillResult)
    (hrec : slowFillGo step limit W fuel
        ((l :: ls).drop (min (l :: ls).length buf.length)) right
        (buf.drop (min (l :: ls).length buf.length))
        (copyBytes st2 (l :: ls) buf) = res)
    (hnd : ((l :: ls) ++ right).Nodup)
    (hbuf : ∀ b2, b2 ∈ buf → ProvByte step W c0 st2.ctr b2)
    (hc0 : c0 ≤ st2.ctr) :
    SlowFillInv step W c0 st2 (l :: ls) right res := by
  obtain ⟨hndL, hndR, hdisj⟩ := List.nodup_append.mp hnd
  obtain ⟨hcn, hcm⟩ := copyBytes_spec (l :: ls) buf st2 hndL
  set len := min (l :: ls).length buf.length with hlen
  set st3 := copyBytes st2 (l :: ls) buf with hst3
  have hctr3 : st3.ctr = st2.ctr := copyBytes_ctr _ _ _
  have hnd2 : (((l :: ls).drop len) ++ right).Nodup :=
    List.Nodup.sublist
      (List.Sublist.append (List.drop_sublist _ _) (List.Sublist.refl right)) hnd
  have hbuf2 : ∀ b2, b2 ∈ buf.drop len → ProvByte step W c0 st3.ctr b2 := by
    intro b2 hb2
    rw [hctr3]
    exact hbuf b2 (List.drop_subset _ _ hb2)
  obtain ⟨g1, g2, g3, g4⟩ := hih _ _ _ _ _ _ hrec hnd2 hbuf2 (by omega)
  have hsplit : ∀ x, x ∈ (l :: ls) ++ right →
      x ∈ (l :: ls).take len ∨ x ∈ ((l :: ls).drop len ++ right) := by
    intro x hx
    rcases List.mem_append.mp hx with hxl | hxr
    · rw [← List.take_append_drop len (l :: ls)] at hxl
      exact (List.mem_append.mp hxl).imp id (fun h2 => List.mem_append.mpr (Or.inl h2))
    · exact Or.inr (List.mem_append.mpr (Or.inr hxr))
  refine ⟨by omega, ?_, ?_, ?_⟩
  · intro x hx
    have hxtake : x ∉ (l :: ls).take len := fun hc =>
      hx (List.mem_append.mpr (Or.inl (List.take_subset _ _ hc)))
    have hxrest : x ∉ (l :: ls).drop len ++ right := fun hc => by
      rcases List.mem_append.mp hc with h1 | h1
      · exact hx (List.mem_append.mpr (Or.inl (List.drop_subset _ _ h1)))
      · exact hx (List.mem_append.mpr (Or.inr h1))
    obtain ⟨ha1, ha2⟩ := hcn x hxtake
    obtain ⟨hb1g, hb2g⟩ := g2 x hxrest
    exact ⟨by rw [hb1g, ha1], by rw [hb2g, ha2]⟩
  · intro x hx
    rcases hsplit x hx with hxt | hxr
    · obtain ⟨hw1, b2, hb21, hb22⟩ := hcm x hxt
      have hxrest : x ∉ (l :: ls).drop len ++ right := fun hc => by
        rcases List.mem_append.mp hc with h1 | h1
        · exact take_drop_disjoint (l :: ls) len hndL x hxt h1
        · exact hdisj (List.take_subset _ _ hxt) h1
      obtain ⟨hf1, hf2⟩ := g2 x hxrest
      constructor
      · rw [hf2, hw1]
      · intro _
        have hmem : res.state.mem x = b2 := by rw [hf1, hb22]
        rw [hmem]
        exact ProvByte.mono step W c0 st2.ctr c0 res.state.ctr b2 (le_refl _)
          (by omega) (hbuf b2 hb21)
    · obtain ⟨hi1, hi2⟩ := g3 x hxr
      have hxtake : x ∉ (l :: ls).take len := by
        rcases List.mem_append.mp hxr with h1 | h1
        · exact fun hc => take_drop_disjoint (l :: ls) len hndL x hc h1
        · exact fun hc => hdisj (List.take_subset _ _ hc) h1
      obtain ⟨ha1, ha2⟩ := hcn x hxtake
      constructor
      · omega
      · intro heq2
        exact hi2 (by omega)
  · intro hok x hx
    rcases hsplit x hx with hxt | hxr
    · obtain ⟨hw1, _⟩ := hcm x hxt
      have hxrest : x ∉ (l :: ls).drop len ++ right := fun hc => by
        rcases List.mem_append.mp hc with h1 | h1
        · exact take_drop_disjoint (l :: ls) len hndL x hxt h1
        · exact hdisj (List.take_subset _ _ hxt) h1
      obtain ⟨hf1, hf2⟩ := g2 x hxrest
      omega
    · have hxtake : x ∉ (l :: ls).take len := by
        rcases List.mem_append.mp hxr with h1 | h1
        · exact fun hc => take_drop_disjoint (l :: ls) len hndL x hc h1
        · exact fun hc => hdisj (List.take_subset _ _ hc) h1
      obtain ⟨ha1, ha2⟩ := hcn x hxtake
      have hg := g4 hok x hxr
      omega

/- The splice loop satisfies its contract for any fuel. -/

theorem slowFillGo_spec (step : Nat → Option Nat) (limit W : Nat) :
    ∀ fuel (left right buffer : List Nat) (st : FillState) (c0 : Nat) res,
      slowFillGo step limit W fuel left right buffer st = res →
      (left ++ right).Nodup →
      (∀ b, b ∈ buffer → ProvByte step W c0 st.ctr b) →
      c0 ≤ st.ctr →
      SlowFillInv step W c0 st left right res := by
  intro fuel
  induction fuel with
  | zero =>
    intro left right buffer st c0 res h hnd hbuf hc0
    simp only [slowFillGo] at h
    subst h
    refine ⟨le_refl _, fun x _ => ⟨rfl, rfl⟩, ?_, ?_⟩
    · intro x _
      exact ⟨Nat.le_succ _,
        fun hc => absurd (show st.writes x = st.writes x + 1 from hc) (by omega)⟩
    · intro hok
      exact absurd hok (by simp [FillResult.isOk])
  | succ fuel ih =>
    intro left right buffer st c0 res h hnd hbuf hc0
    cases left with
    | nil =>
      cases right with
      | nil =>
        simp only [slowFillGo] at h
        subst h
        refine ⟨le_refl _, fun x _ => ⟨rfl, rfl⟩, ?_, ?_⟩
        · intro x hx
          exact absurd hx (by simp)
        · intro _ x hx
          exact absurd hx (by simp)
      | cons r rs =>
        simp only [slowFillGo] at h
        obtain ⟨g1, g2, g3, g4⟩ :=
          ih (r :: rs) [] buffer st c0 res h (by simpa using hnd) hbuf hc0
        refine ⟨g1, ?_, ?_, ?_⟩
        · intro x hx
          exact g2 x (by simpa using hx)
        · intro x hx
          exact g3 x (by simpa using hx)
        · intro hok x hx
          exact g4 hok x (by simpa using hx)
    | cons l ls =>
      cases buffer with
      | nil =>
        simp only [slowFillGo] at h
        split at h
        · -- the refill draw failed: the whole fill aborts with nothing copied
          rename_i s2 heq
          subst h
          obtain ⟨hls1, hls2, hls3⟩ :=
            loopRandGo_liftStep_spec step (limit + 1) st.ctr _ _
              (by simpa only [loop_rand] using heq)
          refine ⟨hls1, fun x _ => ⟨rfl, rfl⟩, ?_, ?_⟩
          · intro x _
            exact ⟨Nat.le_succ _,
              fun hc => absurd (show st.writes x = st.writes x + 1 from hc) (by omega)⟩
          · intro hok
            exact absurd hok (by simp [FillResult.isOk])
        · -- the refill draw succeeded: splice from the fresh word
          rename_i w s2 heq
          obtain ⟨hls1, hls2, hls3⟩ :=
            loopRandGo_liftStep_spec step (limit + 1) st.ctr _ _
              (by simpa only [loop_rand] using heq)
          obtain ⟨t0, ht01, ht02, ht03⟩ := hls3 w rfl
          have hbufw : ∀ b2, b2 ∈ wordBytesList W w →
              ProvByte step W c0 ({ st with ctr := s2 } : FillState).ctr b2 := by
            intro b2 hb2
            obtain ⟨j, hj, hbj⟩ := mem_wordBytesList W w b2 hb2
            refine ⟨t0, w, j, by omega, ?_, ht03, hj, hbj⟩
            show t0 < s2
            omega
          have hc02 : c0 ≤ ({ st with ctr := s2 } : FillState).ctr := by
            show c0 ≤ s2
            omega
          obtain ⟨g1, g2, g3, g4⟩ :=
            slowFillGo_copy_step step limit W fuel ih l ls right (wordBytesList W w)
              { st with ctr := s2 } c0 res h hnd hbufw hc02
          have g1l : s2 ≤ res.state.ctr := g1
          exact ⟨by omega, g2, g3, g4⟩
      | cons b bs =>
        simp only [slowFillGo] at h
        exact slowFillGo_copy_step step limit W fuel ih l ls right (b :: bs) st c0 res
          h hnd hbuf hc0

/- Invocation-count bound for the splice loop: at most one draw per byte
written, plus one failing draw, each of at most limit + 1 invocations. -/

theorem slowFillGo_ctr_bound (step : Nat → Option Nat) (limit W : Nat) (hW : 0 < W) :
    ∀ fuel (left right buffer : List Nat) (st : FillState) res,
      slowFillGo step limit W fuel left right buffer st = res →
      res.state.ctr ≤ st.ctr + (left.length + right.length + 1) * (limit + 1) := by
  intro fuel
  induction fuel with
  | zero =>
    intro left right buffer st res h
    simp only [slowFillGo] at h
    subst h
    exact Nat.le_add_right _ _
  | succ fuel ih =>
    intro left right buffer st res h
    cases left with
    | nil =>
      cases right with
      | nil =>
        simp only [slowFillGo] at h
        subst h
        exact Nat.le_add_right _ _
      | cons r rs =>
        simp only [slowFillGo] at h
        simpa using ih (r :: rs) [] buffer st res h
    | cons l ls =>
      cases buffer with
      | nil =>
        simp only [slowFillGo] at h
        split at h
        · rename_i s2 heq
          subst h
          obtain ⟨hls1, hls2, _⟩ :=
            loopRandGo_liftStep_spec step (limit + 1) st.ctr _ _
              (by simpa only [loop_rand] using heq)
          show s2 ≤ st.ctr + ((l :: ls).length + right.length + 1) * (limit + 1)
          have hone : 1 * (limit + 1) ≤ ((l :: ls).length + right.length + 1) * (limit + 1) :=
            Nat.mul_le_mul_right _ (by omega)
          have hid : 1 * (limit + 1) = limit + 1 := by ring
          omega
        · rename_i w s2 heq
          obtain ⟨hls1, hls2, _⟩ :=
            loopRandGo_liftStep_spec step (limit + 1) st.ctr _ _
              (by simpa only [loop_rand] using heq)
          have hrec := ih _ _ _ _ _ h
          have hctr3 : (copyBytes { st with ctr := s2 } (l :: ls) (wordBytesList W w)).ctr = s2 :=
            copyBytes_ctr _ _ _
          have hdl := List.length_drop (min (l :: ls).length (wordBytesList W w).length) (l :: ls)
          rw [hdl] at hrec
          have hlc : (l :: ls).length = ls.length + 1 := List.length_cons l ls
          have hminpos : 1 ≤ min (l :: ls).length (wordBytesList W w).length := by
            rw [length_wordBytesList]
            omega
          have hmono : ((l :: ls).length - min (l :: ls).length (wordBytesList W w).length
                + right.length + 1) * (limit + 1)
              ≤ ((l :: ls).length + right.length) * (limit + 1) :=
            Nat.mul_le_mul_right _ (by omega)
          have hdist : ((l :: ls).length + right.length + 1) * (limit + 1)
              = ((l :: ls).length + right.length) * (limit + 1) + (limit + 1) := by ring
          omega
      | cons b bs =>
        simp only [slowFillGo] at h
        have hrec := ih _ _ _ _ _ h
        have hctr3 : (copyBytes st (l :: ls) (b :: bs)).ctr = st.ctr := copyBytes_ctr _ _ _
        have hdl := List.length_drop (min (l :: ls).length (b :: bs).length) (l :: ls)
        rw [hdl] at hrec
        have hmono : ((l :: ls).length - min (l :: ls).length (b :: bs).length
              + right.length + 1) * (limit + 1)
            ≤ ((l :: ls).length + right.length + 1) * (limit + 1) :=
          Nat.mul_le_mul_right _ (by omega)
        omega

/- Fuel stability: the result of the splice loop is already reached at the entry
fuel of slow_fill_bytes, so the source loop terminates within that many
iterations. -/

theorem slowFillGo_fuel_stable (step : Nat → Option Nat) (limit W : Nat) (hW : 0 < W) :
    ∀ f1 f2 (left right buffer : List Nat) (st : FillState),
      left.length + 2 * right.length + 2 ≤ f1 →
      left.length + 2 * right.length + 2 ≤ f2 →
      slowFillGo step limit W f1 left right buffer st =
        slowFillGo step limit W f2 left right buffer st := by
  intro f1
  induction f1 using Nat.strong_induction_on with
  | _ f1 ih =>
    intro f2 left right buffer st h1 h2
    cases f1 with
    | zero => exact absurd h1 (by omega)
    | succ g1 =>
      cases f2 with
      | zero => exact absurd h2 (by omega)
      | succ g2 =>
        cases left with
        | nil =>
          cases right with
          | nil => rfl
          | cons r rs =>
            show slowFillGo step limit W g1 (r :: rs) [] buffer st =
              slowFillGo step limit W g2 (r :: rs) [] buffer st
            simp only [List.length_nil, List.length_cons] at h1 h2
            exact ih g1 (by omega) g2 (r :: rs) [] buffer st
              (by simp only [List.length_nil, List.length_cons]; omega)
              (by simp only [List.length_nil, List.length_cons]; omega)
        | cons l ls =>
          simp only [List.length_cons] at h1 h2
          cases buffer with
          | nil =>
            rcases hl : loop_rand (liftStep step) limit st.ctr with ⟨r0, s2⟩
            rcases r0 with e | w
            · simp only [slowFillGo, hl]
            · simp only [slowFillGo, hl]
              have hdl := List.length_drop
                (min (l :: ls).length (wordBytesList W w).length) (l :: ls)
              have hlc : (l :: ls).length = ls.length + 1 := List.length_cons l ls
              have hminpos : 1 ≤ min (l :: ls).length (wordBytesList W w).length := by
                rw [length_wordBytesList]
                omega
              exact ih g1 (by omega) g2 _ _ _ _ (by omega) (by omega)
          | cons b bs =>
            simp only [slowFillGo]
            have hdl := List.length_drop
              (min (l :: ls).length (b :: bs).length) (l :: ls)
            have hlc : (l :: ls).length = ls.length + 1 := List.length_cons l ls
            have hminpos : 1 ≤ min (l :: ls).length (b :: bs).length := by
              simp only [List.length_cons]
              omega
            exact ih g1 (by omega) g2 _ _ _ _ (by omega) (by omega)

/- Composition over try_fill_bytes: frame, at-most-once writes, provenance,
and exact coverage when the fill completes. -/

theorem try_fill_bytes_spec (step : Nat → Option Nat) (limit W a n : Nat)
    (st : FillState) (res : FillResult)
    (h : try_fill_bytes step limit W a n st = res) :
    st.ctr ≤ res.state.ctr ∧
    (∀ x, x < a ∨ a + n ≤ x →
      res.state.mem x = st.mem x ∧ res.state.writes x = st.writes x) ∧
    (∀ x, a ≤ x → x < a + n →
      res.state.writes x ≤ st.writes x + 1 ∧
      (res.state.writes x = st.writes x + 1 →
        ProvByte step W st.ctr res.state.ctr (res.state.mem x))) ∧
    (res.isOk = true → ∀ x, a ≤ x → x < a + n →
      res.state.writes x = st.writes x + 1) := by
  by_cases hn : n > W
  · simp only [try_fill_bytes] at h
    rw [if_pos hn] at h
    set L := min n ((W - a % W) % W) with hLdef
    set M := (n - L) / W with hMdef
    set R := n - L - M * W with hRdef
    have hLn : L ≤ n := Nat.min_le_left _ _
    have hMW : M * W ≤ n - L := Nat.div_mul_le_self _ _
    split at h
    · -- a middle draw failed: nothing outside the middle was touched
      rename_i st2 heq
      subst h
      obtain ⟨m1, m2, m3, m4, m5⟩ := fillMid_spec step limit W M (a + L) st _ heq
      have m1l : st.ctr ≤ st2.ctr := m1
      have m3l : ∀ x, x < a + L ∨ a + L + M * W ≤ x →
          st2.mem x = st.mem x ∧ st2.writes x = st.writes x := m3
      have m4l : ∀ x, a + L ≤ x → x < a + L + M * W →
          st2.writes x ≤ st.writes x + 1 ∧
          (st2.writes x = st.writes x + 1 →
            ProvByte step W st.ctr st2.ctr (st2.mem x)) := m4
      refine ⟨m1l, ?_, ?_, ?_⟩
      · intro x hx
        exact m3l x (by omega)
      · intro x hx1 hx2
        by_cases hxm : a + L ≤ x ∧ x < a + L + M * W
        · obtain ⟨q1, q2⟩ := m4l x hxm.1 hxm.2
          exact ⟨q1, fun he => q2 he⟩
        · obtain ⟨q1, q2⟩ := m3l x (by omega)
          refine ⟨?_, ?_⟩
          · show st2.writes x ≤ st.writes x + 1
            omega
          · intro he
            exact absurd (show st2.writes x = st.writes x + 1 from he) (by omega)
      · intro hok
        exact absurd hok (by simp [FillResult.isOk])
    · -- middle complete; the splice pass runs over head and tail
      rename_i st2 heq
      obtain ⟨m1, m2, m3, m4, m5⟩ := fillMid_spec step limit W M (a + L) st _ heq
      have m1l : st.ctr ≤ st2.ctr := m1
      have m3l : ∀ x, x < a + L ∨ a + L + M * W ≤ x →
          st2.mem x = st.mem x ∧ st2.writes x = st.writes x := m3
      have m4l : ∀ x, a + L ≤ x → x < a + L + M * W →
          st2.writes x ≤ st.writes x + 1 ∧
          (st2.writes x = st.writes x + 1 →
            ProvByte step W st.ctr st2.ctr (st2.mem x)) := m4
      simp only [slow_fill_bytes] at h
      have hnd : (addrList a L ++ addrList (a + L + M * W) R).Nodup := by
        rw [List.nodup_append]
        refine ⟨addrList_nodup _ _, addrList_nodup _ _, ?_⟩
        intro x hx1 hx2
        rw [mem_addrList] at hx1 hx2
        omega
      obtain ⟨s1, s2f, s3, s4⟩ :=
        slowFillGo_spec step limit W _ (addrList a L) (addrList (a + L + M * W) R) []
          st2 st.ctr res h hnd (fun b hb => absurd hb (by simp)) m1l
      have hmemconv : ∀ x, x ∈ addrList a L ++ addrList (a + L + M * W) R ↔
          ((a ≤ x ∧ x < a + L) ∨ (a + L + M * W ≤ x ∧ x < a + L + M * W + R)) := by
        intro x
        rw [List.mem_append, mem_addrList, mem_addrList]
      refine ⟨by omega, ?_, ?_, ?_⟩
      · intro x hx
        have hxnot : x ∉ addrList a L ++ addrList (a + L + M * W) R := by
          rw [hmemconv]
          omega
        obtain ⟨f1, f2⟩ := s2f x hxnot
        obtain ⟨g1m, g2m⟩ := m3l x (by omega)
        exact ⟨by rw [f1, g1m], by rw [f2, g2m]⟩
      · intro x hx1g hx2g
        by_cases hxm : a + L ≤ x ∧ x < a + L + M * W
        · have hxnot : x ∉ addrList a L ++ addrList (a + L + M * W) R := by
            rw [hmemconv]
            omega
          obtain ⟨f1, f2⟩ := s2f x hxnot
          have hmid5 := m5 st2 rfl x hxm.1 hxm.2
          obtain ⟨q1, q2⟩ := m4l x hxm.1 hxm.2
          constructor
          · rw [f2]
            omega
          · intro _
            have hp := q2 hmid5
            have hfm : res.state.mem x = st2.mem x := f1
            rw [hfm]
            exact ProvByte.mono step W st.ctr st2.ctr st.ctr res.state.ctr _
              (le_refl _) s1 hp
        · have hxin : x ∈ addrList a L ++ addrList (a + L + M * W) R := by
            rw [hmemconv]
            omega
          obtain ⟨q1, q2⟩ := s3 x hxin
          obtain ⟨g1m, g2m⟩ := m3l x (by omega)
          refine ⟨by omega, ?_⟩
          intro he
          exact q2 (by omega)
      · intro hok x hx1g hx2g
        by_cases hxm : a + L ≤ x ∧ x < a + L + M * W
        · have hxnot : x ∉ addrList a L ++ addrList (a + L + M * W) R := by
            rw [hmemconv]
            omega
          obtain ⟨f1, f2⟩ := s2f x hxnot
          have hmid5 := m5 st2 rfl x hxm.1 hxm.2
          rw [f2]
          omega
        · have hxin : x ∈ addrList a L ++ addrList (a + L + M * W) R := by
            rw [hmemconv]
            omega
          have hq := s4 hok x hxin
          obtain ⟨g1m, g2m⟩ := m3l x (by omega)
          omega
  · -- the whole destination fits in one word: only the splice pass runs
    simp only [try_fill_bytes] at h
    rw [if_neg hn] at h
    simp only [slow_fill_bytes] at h
    obtain ⟨s1, s2f, s3, s4⟩ :=
      slowFillGo_spec step limit W _ (addrList a n) [] [] st st.ctr res h
        (by simpa using addrList_nodup a n) (fun b hb => absurd hb (by simp))
        (le_refl _)
    refine ⟨s1, ?_, ?_, ?_⟩
    · intro x hx
      exact s2f x (by simp only [List.append_nil, mem_addrList]; omega)
    · intro x hx1 hx2
      exact s3 x (by simp only [List.append_nil, mem_addrList]; omega)
    · intro hok x hx1 hx2
      exact s4 hok x (by simp only [List.append_nil, mem_addrList]; omega)

/- Invocation-count bound for the whole fill. -/

theorem try_fill_bytes_ctr_bound (step : Nat → Option Nat) (limit W a n : Nat)
    (st : FillState) (res : FillResult) (hW : 0 < W)
    (h : try_fill_bytes step limit W a n st = res) :
    res.state.ctr ≤ st.ctr + (n + 1) * (limit + 1) := by
  by_cases hn : n > W
  · simp only [try_fill_bytes] at h
    rw [if_pos hn] at h
    set L := min n ((W - a % W) % W) with hLdef
    set M := (n - L) / W with hMdef
    set R := n - L - M * W with hRdef
    have hLn : L ≤ n := Nat.min_le_left _ _
    have hMW : M * W ≤ n - L := Nat.div_mul_le_self _ _
    have hMle : M ≤ M * W := Nat.le_mul_of_pos_right M hW
    split at h
    · rename_i st2 heq
      subst h
      obtain ⟨m1, m2, _⟩ := fillMid_spec step limit W M (a + L) st _ heq
      have m2l : st2.ctr ≤ st.ctr + M * (limit + 1) := m2
      have hmono : M * (limit + 1) ≤ n * (limit + 1) :=
        Nat.mul_le_mul_right _ (by omega)
      have hdist : (n + 1) * (limit + 1) = n * (limit + 1) + (limit + 1) := by ring
      show st2.ctr ≤ st.ctr + (n + 1) * (limit + 1)
      omega
    · rename_i st2 heq
      obtain ⟨m1, m2, _⟩ := fillMid_spec step limit W M (a + L) st _ heq
      have m2l : st2.ctr ≤ st.ctr + M * (limit + 1) := m2
      simp only [slow_fill_bytes] at h
      have hb := slowFillGo_ctr_bound step limit W hW _ _ _ _ _ _ h
      rw [length_addrList, length_addrList] at hb
      have hsum : M + (L + R + 1) ≤ n + 1 := by omega
      have hcombine : (M + (L + R + 1)) * (limit + 1)
          = M * (limit + 1) + (L + R + 1) * (limit + 1) := by ring
      have hmono2 : (M + (L + R + 1)) * (limit + 1) ≤ (n + 1) * (limit + 1) :=
        Nat.mul_le_mul_right _ hsum
      omega
  · simp only [try_fill_bytes] at h
    rw [if_neg hn] at h
    simp only [slow_fill_bytes] at h
    have hb := slowFillGo_ctr_bound step limit W hW _ _ _ _ _ _ h
    rw [length_addrList] at hb
    simp only [List.length_nil, Nat.add_zero] at hb
    exact hb

/-- Claim C2: for every destination byte range [a, a + n) — every length and
every start alignment — a try_fill_bytes call that returns Ok has written
every destination byte exactly once (its ghost write count rises by exactly
one), every written byte is a byte of a word delivered by the hardware
primitive during this call, and no byte outside the destination is written
(memory and write counts there are untouched). -/
theorem try_fill_bytes_ok_exact (step : Nat → Option Nat) (limit W a n : Nat)
    (st : FillState)
    (hok : (try_fill_bytes step limit W a n st).isOk = true) :
    (∀ x, a ≤ x → x < a + n →
      (try_fill_bytes step limit W a n st).state.writes x = st.writes x + 1 ∧
      ProvByte step W st.ctr (try_fill_bytes step limit W a n st).state.ctr
        ((try_fill_bytes step limit W a n st).state.mem x)) ∧
    (∀ x, x < a ∨ a + n ≤ x →
      (try_fill_bytes step limit W a n st).state.mem x = st.mem x ∧
      (try_fill_bytes step limit W a n st).state.writes x = st.writes x) := by
  obtain ⟨t1, t2, t3, t4⟩ := try_fill_bytes_spec step limit W a n st _ rfl
  refine ⟨?_, t2⟩
  intro x hx1 hx2
  have hw := t4 hok x hx1 hx2
  exact ⟨hw, (t3 x hx1 hx2).2 hw⟩

/-- Witness for C2: a 17-byte destination at odd start address 1 (head 7,
middle 1 word, tail 2 under an 8-byte word), against an always-succeeding
primitive. -/
theorem try_fill_bytes_ok_exact_witness :
    (∀ x, 1 ≤ x → x < 1 + 17 →
      (try_fill_bytes (fun t => some t) 10 8 1 17 zeroFillState).state.writes x =
        zeroFillState.writes x + 1 ∧
      ProvByte (fun t => some t) 8 zeroFillState.ctr
        (try_fill_bytes (fun t => some t) 10 8 1 17 zeroFillState).state.ctr
        ((try_fill_bytes (fun t => some t) 10 8 1 17 zeroFillState).state.mem x)) ∧
    (∀ x, x < 1 ∨ 1 + 17 ≤ x →
      (try_fill_bytes (fun t => some t) 10 8 1 17 zeroFillState).state.mem x =
        zeroFillState.mem x ∧
      (try_fill_bytes (fun t => some t) 10 8 1 17 zeroFillState).state.writes x =
        zeroFillState.writes x) :=
  try_fill_bytes_ok_exact (fun t => some t) 10 8 1 17 zeroFillState rfl

/-- Claim C5 counterexample: against a primitive that succeeds exactly once
and then always fails, filling the 16-byte destination [1, 17) (odd start
inside an 8-byte word) aborts with a hardware failure after the aligned
middle [8, 16) was filled: the fill failed, the first destination byte
(address 1) was never written, yet address 8 was — the bytes already
written do not form a prefix of the destination. -/
theorem try_fill_bytes_fail_mid_written :
    (try_fill_bytes stepOnce 10 8 1 16 zeroFillState).isFail = true ∧
    (try_fill_bytes stepOnce 10 8 1 16 zeroFillState).state.writes 1 = 0 ∧
    (try_fill_bytes stepOnce 10 8 1 16 zeroFillState).state.writes 8 = 1 :=
  ⟨rfl, rfl, rfl⟩

/-- Claim C5 (amended): if a hardware failure occurs at any point during
try_fill_bytes, the whole fill aborts returning the failure, and the bytes
already written — a subset of the destination, each written at most once
with a byte drawn from the primitive, though not necessarily a prefix of
the destination since the aligned middle is filled before the unaligned
head — remain populated: nothing outside the destination is touched and
nothing is rolled back. -/
theorem try_fill_bytes_fail_no_rollback (step : Nat → Option Nat) (limit W a n : Nat)
    (st : FillState)
    (hfail : (try_fill_bytes step limit W a n st).isFail = true) :
    (∀ x, x < a ∨ a + n ≤ x →
      (try_fill_bytes step limit W a n st).state.mem x = st.mem x ∧
      (try_fill_bytes step limit W a n st).state.writes x = st.writes x) ∧
    (∀ x, a ≤ x → x < a + n →
      (try_fill_bytes step limit W a n st).state.writes x ≤ st.writes x + 1 ∧
      ((try_fill_bytes step limit W a n st).state.writes x = st.writes x + 1 →
        ProvByte step W st.ctr (try_fill_bytes step limit W a n st).state.ctr
          ((try_fill_bytes step limit W a n st).state.mem x))) := by
  obtain ⟨t1, t2, t3, t4⟩ := try_fill_bytes_spec step limit W a n st _ rfl
  exact ⟨t2, t3⟩

/-- Witness for amended C5, at the once-succeeding primitive and the
16-byte destination of the counterexample. -/
theorem try_fill_bytes_fail_no_rollback_witness :
    (∀ x, x < 1 ∨ 1 + 16 ≤ x →
      (try_fill_bytes stepOnce 10 8 1 16 zeroFillState).state.mem x =
        zeroFillState.mem x ∧
      (try_fill_bytes stepOnce 10 8 1 16 zeroFillState).state.writes x =
        zeroFillState.writes x) ∧
    (∀ x, 1 ≤ x → x < 1 + 16 →
      (try_fill_bytes stepOnce 10 8 1 16 zeroFillState).state.writes x ≤
        zeroFillState.writes x + 1 ∧
      ((try_fill_bytes stepOnce 10 8 1 16 zeroFillState).state.writes x =
          zeroFillState.writes x + 1 →
        ProvByte stepOnce 8 zeroFillState.ctr
          (try_fill_bytes stepOnce 10 8 1 16 zeroFillState).state.ctr
          ((try_fill_bytes stepOnce 10 8 1 16 zeroFillState).state.mem x))) :=
  try_fill_bytes_fail_no_rollback stepOnce 10 8 1 16 zeroFillState rfl

/- One splice iteration serves a sub-word destination with a single draw. -/

theorem slowFillGo_one_word (step : Nat → Option Nat) (limit W : Nat) :
    ∀ (left : List Nat) (st : FillState) (fuel v : Nat),
      left ≠ [] → left.length ≤ W → step st.ctr = some v →
      left.length + 2 ≤ fuel →
      slowFillGo step limit W fuel left [] [] st =
        FillResult.ok (copyBytes { st with ctr := st.ctr + 1 } left
          (wordBytesList W v)) := by
  intro left st fuel v hne hlen hv hfuel
  cases left with
  | nil => exact absurd rfl hne
  | cons l ls =>
    have hlc : (l :: ls).length = ls.length + 1 := List.length_cons l ls
    cases fuel with
    | zero => omega
    | succ f =>
      have hloop : loop_rand (liftStep step) limit st.ctr = (Except.ok v, st.ctr + 1) := by
        simp [loop_rand, loopRandGo, liftStep, hv]
      simp only [slowFillGo, hloop]
      have hmin : min (l :: ls).length (wordBytesList W v).length = (l :: ls).length := by
        rw [length_wordBytesList]
        exact Nat.min_eq_left hlen
      rw [hmin, List.drop_length]
      cases f with
      | zero => omega
      | succ f2 => rfl

/-- Claim C7: a destination strictly smaller than one native word skips the
aligned-middle pass — try_fill_bytes runs the splice pass over the full
range — and a 7-byte destination starting at an odd offset inside an 8-byte
native word is serviced by exactly one word draw: with a primitive that
succeeds at once, the whole fill performs exactly one invocation. -/
theorem try_fill_bytes_small_splice :
    (∀ (step : Nat → Option Nat) (limit a n : Nat) (st : FillState), n < 8 →
      try_fill_bytes step limit 8 a n st =
        slow_fill_bytes step limit 8 (addrList a n) [] st) ∧
    (∀ (step : Nat → Option Nat) (limit a : Nat) (st : FillState), a % 2 = 1 →
      (∀ t, (step t).isSome = true) →
      (try_fill_bytes step limit 8 a 7 st).isOk = true ∧
      (try_fill_bytes step limit 8 a 7 st).state.ctr = st.ctr + 1) := by
  constructor
  · intro step limit a n st hn
    simp only [try_fill_bytes]
    rw [if_neg (by omega)]
  · intro step limit a st hodd hsucc
    obtain ⟨v, hv⟩ : ∃ v, step st.ctr = some v := by
      rcases hs : step st.ctr with _ | v
      · have hcontra := hsucc st.ctr
        rw [hs] at hcontra
        simp at hcontra
      · exact ⟨v, rfl⟩
    have hlen7 : (addrList a 7).length = 7 := length_addrList a 7
    have hnil : ([] : List Nat).length = 0 := rfl
    have hne : addrList a 7 ≠ [] := by
      intro hc
      rw [hc] at hlen7
      simp at hlen7
    have hone := slowFillGo_one_word step limit 8 (addrList a 7) st
      ((addrList a 7).length + 2 * ([] : List Nat).length + 2) v hne (by omega) hv
      (by omega)
    have hres : try_fill_bytes step limit 8 a 7 st =
        FillResult.ok (copyBytes { st with ctr := st.ctr + 1 } (addrList a 7)
          (wordBytesList 8 v)) := by
      simp only [try_fill_bytes]
      rw [if_neg (by omega)]
      simp only [slow_fill_bytes]
      exact hone
    rw [hres]
    refine ⟨rfl, ?_⟩
    show (copyBytes { st with ctr := st.ctr + 1 } (addrList a 7)
      (wordBytesList 8 v)).ctr = st.ctr + 1
    rw [copyBytes_ctr]

/-- Witness for C7: the skip equation at a 5-byte destination, and the
single-draw fill of the 7-byte destination at odd address 1 against an
always-succeeding primitive. -/
theorem try_fill_bytes_small_splice_witness :
    (try_fill_bytes (fun t => some t) 10 8 1 5 zeroFillState =
      slow_fill_bytes (fun t => some t) 10 8 (addrList 1 5) [] zeroFillState) ∧
    (try_fill_bytes (fun t => some t) 10 8 1 7 zeroFillState).isOk = true ∧
    (try_fill_bytes (fun t => some t) 10 8 1 7 zeroFillState).state.ctr =
      zeroFillState.ctr + 1 :=
  ⟨try_fill_bytes_small_splice.1 (fun t => some t) 10 1 5 zeroFillState (by omega),
   try_fill_bytes_small_splice.2 (fun t => some t) 10 1 zeroFillState (by omega)
     (fun _ => rfl)⟩

/-- Claim C9: for every destination and every behaviour of the raw
primitive, try_fill_bytes terminates with Ok or a failure after a bounded
number of steps: the invocation counter grows by at most (n + 1) retry
rounds of limit + 1 attempts each, and the splice loop reaches its result
within the entry fuel of slow_fill_bytes (supplying more fuel does not
change the outcome, so the source loop completes within that many
iterations). -/
theorem try_fill_bytes_terminates (step : Nat → Option Nat) (limit W a n : Nat)
    (st : FillState) (hW : 0 < W) :
    ((try_fill_bytes step limit W a n st).state.ctr ≤
      st.ctr + (n + 1) * (limit + 1)) ∧
    (∀ fuel (left right buffer : List Nat) (st2 : FillState),
      left.length + 2 * right.length + 2 ≤ fuel →
      slowFillGo step limit W fuel left right buffer st2 =
        slowFillGo step limit W (left.length + 2 * right.length + 2)
          left right buffer st2) := by
  constructor
  · exact try_fill_bytes_ctr_bound step limit W a n st _ hW rfl
  · intro fuel left right buffer st2 hf
    exact slowFillGo_fuel_stable step limit W hW fuel _ left right buffer st2 hf
      (le_refl _)

/-- Witness for C9 at an always-failing primitive and a 3-byte destination
with the rdrand retry limit and the 8-byte native word. -/
theorem try_fill_bytes_terminates_witness :
    ((try_fill_bytes (fun _ => none) 10 8 1 3 zeroFillState).state.ctr ≤
      zeroFillState.ctr + (3 + 1) * (10 + 1)) ∧
    (∀ fuel (left right buffer : List Nat) (st2 : FillState),
      left.length + 2 * right.length + 2 ≤ fuel →
      slowFillGo (fun _ => none) 10 8 fuel left right buffer st2 =
        slowFillGo (fun _ => none) 10 8 (left.length + 2 * right.length + 2)
          left right buffer st2) :=
  try_fill_bytes_terminates (fun _ => none) 10 8 1 3 zeroFillState (by omega)

end Rdrand
